import Mathlib

/-!
Verification of the html2md converter (`src/include/html2md.h`) against its
natural-language specification.

The embedding works on `List Char` for text.  Definitions marked
"from the source" are direct translations of the inline C++ code in
`html2md.h`; definitions whose doc comment starts with `Modelled from the
spec:` embed parts of the converter whose implementation file is not part of
the repository snapshot (only declarations and doc comments are), following
the specification's description of them.
-/

/-- Character equal to the C `'\0'` used when reading `tag[0]` of an empty
`std::string` (which yields the null character). -/
def nulCh : Char := Char.ofNat 0

/-- The double-quote character (written by code point to keep character
literals simple). -/
def dquoteCh : Char := Char.ofNat 34

/-- Whitespace in the sense of C `isspace`: space, tab, newline, vertical
tab, form feed, carriage return. -/
def isWsCh (c : Char) : Bool :=
  c = ' ' || c = '\t' || c = '\n' || c = '\r' || c = Char.ofNat 11 || c = Char.ofNat 12

/-- Blank in the sense of C `isblank`: space and horizontal tab. -/
def isBlankCh (c : Char) : Bool :=
  c = ' ' || c = '\t'

/-- ASCII lower-casing of a single character. -/
def lowerCh (c : Char) : Char :=
  if 'A' ≤ c ∧ c ≤ 'Z' then Char.ofNat (c.toNat + 32) else c

/-- `Converter::kTagPre` from the source. -/
def kTagPre : List Char := "pre".data

/-- `Converter::kTagTitle` from the source. -/
def kTagTitle : List Char := "title".data

/-- `Converter::kTagTemplate` from the source. -/
def kTagTemplate : List Char := "template".data

/-- `Converter::kTagStyle` from the source. -/
def kTagStyle : List Char := "style".data

/-- `Converter::kTagScript` from the source. -/
def kTagScript : List Char := "script".data

/-- `Converter::kTagNoScript` from the source. -/
def kTagNoScript : List Char := "noscript".data

/-- `Converter::kTagNav` from the source. -/
def kTagNav : List Char := "nav".data

/-- `Converter::kTagImg` from the source. -/
def kTagImg : List Char := "img".data

/-- `Converter::kTagParagraph` from the source. -/
def kTagParagraph : List Char := "p".data

/-- `Converter::IsIgnoredTag` from the source (html2md.h lines 792-801):
a tag is ignored when its first character is `'-'` (comment marker) or the
tag is `template`, `style`, `script`, `noscript` or `nav`.  Reading
`tag[0]` of an empty C++ string yields the null character, embedded via
`headD nulCh`. -/
def IsIgnoredTag (tag : List Char) : Bool :=
  tag.headD nulCh = '-'
    || tag = kTagTemplate
    || tag = kTagStyle
    || tag = kTagScript
    || tag = kTagNoScript
    || tag = kTagNav

/-- `Converter::IsInIgnoredTag` from the source (html2md.h lines 803-816):
walk `dom_tags_` from index 0 (the outermost ancestor); return `false` as
soon as `pre` or `title` is met, `true` as soon as an ignored tag is met. -/
def IsInIgnoredTag : List (List Char) → Bool
  | [] => false
  | tag :: rest =>
    if tag = kTagPre || tag = kTagTitle then false
    else if IsIgnoredTag tag then true
    else IsInIgnoredTag rest

/-- The content-filtering rule exactly as the specification's sentence states
it (for comparison with the source's `IsInIgnoredTag`): a character is
suppressed iff some ancestor is an ignored tag and neither `pre` nor `title`
is an ancestor. -/
def claimedSuppression (stack : List (List Char)) : Bool :=
  stack.any IsIgnoredTag && !(stack.any (· == kTagPre) || stack.any (· == kTagTitle))

/-- A tag-boundary event produced by the scanner: an opening or a closing
tag with its (lower-cased) name. -/
inductive TagEvent where
  | opening : List Char → TagEvent
  | closing : List Char → TagEvent
deriving DecidableEq

/-- Scanner state. Modelled from the spec: §4.1's states — Text (outside any
tag), InTag (between `<` and `>`), InAttributeValue (inside a quoted
attribute value) — together with the transient TagToken (tag name, closing
flag) of §3. -/
structure ScanSt where
  inTag : Bool
  inAttr : Bool
  closingFlag : Bool
  tagStart : Bool
  nameDone : Bool
  name : List Char
  events : List TagEvent
deriving DecidableEq

/-- Initial scanner state: Text state, no pending token. -/
def scanInit : ScanSt :=
  ⟨false, false, false, false, false, [], []⟩

/-- Modelled from the spec: one transition of §4.1's scanner.  `<` outside a
quoted value enters InTag and begins a TagToken (closing flag set if the
next character is `/`); quote characters toggle InAttributeValue; whitespace
or `/` after the name ends name accumulation; `>` outside InAttributeValue
finishes the token and emits the tag event; names are lower-cased. -/
def scanStep (s : ScanSt) (c : Char) : ScanSt :=
  if s.inTag then
    if s.inAttr then
      if c = dquoteCh then { s with inAttr := false } else s
    else if c = dquoteCh then { s with inAttr := true, tagStart := false }
    else if c = '>' then
      { s with inTag := false,
               events := s.events ++
                 [if s.closingFlag then TagEvent.closing s.name
                  else TagEvent.opening s.name] }
    else if c = '/' then
      if s.tagStart then { s with closingFlag := true, tagStart := false }
      else { s with nameDone := true, tagStart := false }
    else if isWsCh c then { s with nameDone := true, tagStart := false }
    else if s.nameDone then { s with tagStart := false }
    else { s with name := s.name ++ [lowerCh c], tagStart := false }
  else if c = '<' then
    { s with inTag := true, inAttr := false, closingFlag := false,
             tagStart := true, nameDone := false, name := [] }
  else s

/-- Modelled from the spec: the sequence of tag events the scanner emits for
an input (a fold of `scanStep` over the characters). -/
def scanEvents (cs : List Char) : List TagEvent :=
  (cs.foldl scanStep scanInit).events

/-- Modelled from the spec: the AncestryStack update of §4.1 — push the name
on an opening tag; on a closing tag pop when the top of the stack matches,
otherwise tolerate the mismatch and leave the stack unchanged.  The stack is
kept in document order (index 0 = outermost), matching `dom_tags_`. -/
def stackStep (st : List (List Char)) : TagEvent → List (List Char)
  | TagEvent.opening t => st ++ [t]
  | TagEvent.closing t => if st.getLast? = some t then st.dropLast else st

/-- Run the AncestryStack updates over a list of tag events. -/
def runStack (es : List TagEvent) (st : List (List Char)) : List (List Char) :=
  es.foldl stackStep st

/-- Modelled from the spec: `Converter::ok` (declared in html2md.h lines
156-159, body not in the snapshot) — reports whether the AncestryStack is
empty once the scan of the whole input completes. -/
def converterOk (cs : List Char) : Bool :=
  (runStack (scanEvents cs) []).isEmpty

/-- Well-nested (Dyck-style) event sequences: every opening tag is matched
by a corresponding closing tag, properly nested. -/
inductive BalancedEvents : List TagEvent → Prop
  | nil : BalancedEvents []
  | node (t : List Char) {inner rest : List TagEvent} :
      BalancedEvents inner → BalancedEvents rest →
      BalancedEvents (TagEvent.opening t :: inner ++ TagEvent.closing t :: rest)

/-- Drop leading whitespace characters (the in-place `LTrim` of the source,
declared html2md.h line 736; body not in the snapshot).  Modelled from the
spec: "trim leading ... whitespace". -/
def dropLeadWs : List Char → List Char
  | [] => []
  | c :: cs => if isWsCh c then dropLeadWs cs else c :: cs

/-- Drop trailing whitespace characters (the `RTrim` of the source with
`trim_only_blank = false`, declared html2md.h line 739; body not in the
snapshot).  Modelled from the spec: "trim ... trailing whitespace". -/
def dropTrailWs : List Char → List Char
  | [] => []
  | c :: cs =>
    match dropTrailWs cs with
    | [] => if isWsCh c then [] else [c]
    | r => c :: r

/-- Trim leading and trailing whitespace (the `Trim` of the source, declared
html2md.h line 742; body not in the snapshot).  Modelled from the spec:
"trim leading/trailing whitespace". -/
def trimChars (cs : List Char) : List Char :=
  dropTrailWs (dropLeadWs cs)

/-- Split a character list into its lines at `'\n'` (the line structure the
normalizer works on; `[]` splits into one empty line, as splitting an empty
string does). -/
def toLines : List Char → List (List Char)
  | [] => [[]]
  | c :: cs =>
    if c = '\n' then [] :: toLines cs
    else
      match toLines cs with
      | [] => [[c]]
      | l :: ls => (c :: l) :: ls

/-- Join lines back with `'\n'` separators. -/
def fromLines : List (List Char) → List Char
  | [] => []
  | [l] => l
  | l :: ls => l ++ '\n' :: fromLines ls

/-- Modelled from the spec: the blank-line collapsing of the normalizer
(§4.3 (b), and the source comment on `TidyAllLines`, html2md.h lines
744-746: "reduce consecutive newlines to maximum 3").  The argument counts
how many blank lines of the current run have already been kept; at most two
blank lines of each run are kept. -/
def collapseAux : Nat → List (List Char) → List (List Char)
  | _, [] => []
  | k, l :: ls =>
    if l = [] then
      (if k < 2 then [[]] else []) ++ collapseAux (k + 1) ls
    else l :: collapseAux 0 ls

/-- The blank-line collapsing pass starting outside any blank run. -/
def collapseBlankLines (ls : List (List Char)) : List (List Char) :=
  collapseAux 0 ls

/-- Modelled from the spec: `Converter::TidyAllLines` (declared html2md.h
lines 744-746, body not in the snapshot) — trim every line, then collapse
runs of blank lines (§4.3 (a) and (b)). -/
def TidyAllLines (cs : List Char) : List Char :=
  fromLines (collapseBlankLines ((toLines cs).map trimChars))

/-- Modelled from the spec: `Converter::CleanUpMarkdown` (declared html2md.h
line 733, body not in the snapshot) — the whole normalizer pass of §4.3:
(a) trim every line, (b) collapse blank-line runs, (c) trim the whole
document. -/
def CleanUpMarkdown (cs : List Char) : List Char :=
  trimChars (TidyAllLines cs)

/-- Drop leading blank lines of a line list. -/
def dropLeadBlankLines (ls : List (List Char)) : List (List Char) :=
  ls.dropWhile (· = [])

/-- Drop trailing blank lines of a line list. -/
def dropTrailBlankLines : List (List Char) → List (List Char)
  | [] => []
  | l :: ls =>
    match dropTrailBlankLines ls with
    | [] => if l = [] then [] else [l]
    | r => l :: r

/-- A character list is trimmed when its first and last characters (if any)
are not whitespace. -/
def TrimmedChars (l : List Char) : Prop :=
  (∀ c, l.head? = some c → isWsCh c = false) ∧
  (∀ c, l.getLast? = some c → isWsCh c = false)

/-- Line lists on which the blank-line collapsing pass is a fixpoint, given
that `k` blanks of the current run were already kept. -/
inductive CollapsedLines : Nat → List (List Char) → Prop
  | nil (k : Nat) : CollapsedLines k []
  | blank {k : Nat} {ls : List (List Char)} :
      k < 2 → CollapsedLines (k + 1) ls → CollapsedLines k ([] :: ls)
  | line {k : Nat} {l : List Char} {ls : List (List Char)} :
      l ≠ [] → CollapsedLines 0 ls → CollapsedLines k (l :: ls)

/-- The mutable converter state the tag handlers read and write (the
RenderState and OutputBuffer of §3): the fields of `Converter` in html2md.h
lines 220-263 that the embedded handlers touch.  `prev_ch_in_md_` and
`prev_prev_ch_in_md_` are not stored: the source keeps them equal to the
last two characters of `md_` (§3: controlled append/shorten operations keep
the "last two characters" tracking consistent), so they are derived below. -/
structure ConvSt where
  md : List Char
  dom_tags : List (List Char)
  is_in_table : Bool
  is_in_list : Bool
  is_in_ordered_list : Bool
  is_in_pre : Bool
  is_in_code : Bool
  index_li : Nat
  index_blockquote : Nat
  prev_tag : List Char
  tableLine : List Char
  current_href : List Char
  current_title : List Char
deriving DecidableEq

/-- The converter's initial state (field initializers in html2md.h). -/
def convInit : ConvSt :=
  ⟨[], [], false, false, false, false, false, 0, 0, [], [], [], []⟩

/-- `prev_ch_in_md_`: the last character of the Markdown buffer. -/
def prevCh (st : ConvSt) : Option Char :=
  st.md.getLast?

/-- `prev_prev_ch_in_md_`: the second-to-last character of the buffer. -/
def prevPrevCh (st : ConvSt) : Option Char :=
  st.md.dropLast.getLast?

/-- `Converter::AppendToMd`: append text to the Markdown buffer. -/
def appendMd (s : List Char) (st : ConvSt) : ConvSt :=
  { st with md := st.md ++ s }

/-- `Converter::ShortenMarkdown(chars)`: remove the last `chars` characters
of the buffer (declared html2md.h line 781; body not in the snapshot,
modelled from the spec's "shorten" operation on the OutputBuffer). -/
def shortenMd (chars : Nat) (st : ConvSt) : ConvSt :=
  { st with md := st.md.take (st.md.length - chars) }

/-- `Converter::AppendBlank` on a raw buffer, from its doc comment
(html2md.h lines 145-153): append `' '` unless the buffer ends with `'*'`
or `'\n'`. -/
def appendBlankMd (m : List Char) : List Char :=
  match m.getLast? with
  | some c => if c = '\n' ∨ c = '*' then m else m ++ [' ']
  | none => m ++ [' ']

/-- `Converter::AppendBlank` as a state operation. -/
def appendBlank (st : ConvSt) : ConvSt :=
  { st with md := appendBlankMd st.md }

/-- `Converter::RTrim(s, trim_only_blank := true)` (declared html2md.h line
739; body not in the snapshot).  Modelled from the spec's "rtrim" in the
anchor handler row: remove trailing blank characters. -/
def rtrimBlank (m : List Char) : List Char :=
  (m.reverse.dropWhile isBlankCh).reverse

/-- `utils::Repeat` from the source (html2md.h lines 48-59) in the regime
where its loop terminates (`amount < 2 ^ 16`, see `repeatGuardHolds` for the
loop itself): `amount` concatenated copies of `str`. -/
def repeatStr (s : List Char) (amount : Nat) : List Char :=
  (List.replicate amount s).flatten

/-- The guard of the `for (uint16_t i = 0; i < amount; i++)` loop inside
`utils::Repeat` (html2md.h line 54) at its `n`-th evaluation: the counter
`i` is a 16-bit value that has been incremented `n` times, so it holds
`n % 2 ^ 16`, and the loop continues while it is below `amount`. -/
def repeatGuardHolds (amount n : Nat) : Prop :=
  n % 65536 < amount

/-- The loop of `utils::Repeat` terminates iff its guard eventually fails. -/
def RepeatLoopTerminates (amount : Nat) : Prop :=
  ∃ n, ¬ repeatGuardHolds amount n

/-- Replace the last space of the current (last) line of the buffer by a
newline: `Converter::ReplacePreviousSpaceInLineByNewline` (declared
html2md.h line 790; body not in the snapshot, modelled from its comment
"Replace previous space (if any) in current markdown line by newline").
Works on the reversed line; `replFirstSpace` substitutes the first space of
a reversed line. -/
def replFirstSpace : List Char → Option (List Char)
  | [] => none
  | c :: cs =>
    if c = ' ' then some ('\n' :: cs)
    else (replFirstSpace cs).map (c :: ·)

/-- See `replFirstSpace`. -/
def replacePrevSpaceInLine (m : List Char) : List Char :=
  let rev := m.reverse
  let lineRev := rev.takeWhile (fun c => ¬ (c = '\n'))
  let restRev := rev.dropWhile (fun c => ¬ (c = '\n'))
  match replFirstSpace lineRev with
  | none => m
  | some nl => (nl ++ restRev).reverse

/-- `TagAnchor::OnHasLeftOpeningTag` from the source (html2md.h lines
282-294).  The extracted `title` and `href` attribute values are passed as
parameters (the backward attribute scan lives in the missing
implementation file; §4.1 makes attribute retrieval independent of the
scanner). -/
def anchorOpenH (href title : List Char) (st : ConvSt) : ConvSt :=
  if IsInIgnoredTag st.dom_tags then st
  else
    let st1 := if st.prev_tag = kTagImg then appendMd "\n".data st else st
    let st2 := { st1 with current_title := title }
    let st3 := appendMd "[".data (appendBlank { st2 with md := rtrimBlank st2.md })
    { st3 with current_href := href }

/-- `TagAnchor::OnHasLeftClosingTag` from the source (html2md.h lines
296-321). -/
def anchorCloseH (st : ConvSt) : ConvSt :=
  if IsInIgnoredTag st.dom_tags then st
  else
    let st1 := if prevCh st = some ' ' then shortenMd 1 st else st
    if prevCh st1 = some '[' then shortenMd 1 st1
    else
      let st2 := appendMd st1.current_href (appendMd "](".data st1)
      let st3 :=
        if st2.current_title ≠ [] then
          appendMd ([dquoteCh]) (appendMd st2.current_title (appendMd (' ' :: [dquoteCh]) st2))
        else st2
      let st4 := appendMd ") ".data st3
      if st4.prev_tag = kTagImg then appendMd "\n".data st4 else st4

/-- Decimal digits of a number, as the `std::to_string` call in
`TagListItem` produces them. -/
def natChars (n : Nat) : List Char :=
  (Nat.repr n).data

/-- `TagListItem::OnHasLeftOpeningTag` from the source (html2md.h lines
456-471): nothing inside a table; `"- "` in an unordered list; otherwise
increment `index_li` and emit `"N. "`. -/
def listItemOpenH (st : ConvSt) : ConvSt :=
  if st.is_in_table then st
  else if st.is_in_ordered_list = false then appendMd "- ".data st
  else
    let st1 := { st with index_li := st.index_li + 1 }
    appendMd (natChars st1.index_li ++ ". ".data) st1

/-- `TagListItem::OnHasLeftClosingTag` from the source (html2md.h lines
472-477). -/
def listItemCloseH (st : ConvSt) : ConvSt :=
  if st.is_in_table then st
  else if prevCh st ≠ some '\n' then appendMd "\n".data st
  else st

/-- `TagOrderedList::OnHasLeftOpeningTag` from the source (html2md.h lines
488-498): set the list flags, reset `index_li` to 0, replace the previous
space of the line by a newline, append `'\n'`. -/
def orderedListOpenH (st : ConvSt) : ConvSt :=
  if st.is_in_table then st
  else
    let st1 := { st with is_in_list := true, is_in_ordered_list := true, index_li := 0 }
    appendMd "\n".data { st1 with md := replacePrevSpaceInLine st1.md }

/-- `TagOrderedList::OnHasLeftClosingTag` from the source (html2md.h lines
499-506). -/
def orderedListCloseH (st : ConvSt) : ConvSt :=
  if st.is_in_table then st
  else appendMd "\n".data { st with is_in_list := false, is_in_ordered_list := false }

/-- `TagTable::OnHasLeftOpeningTag` from the source (html2md.h lines
655-658). -/
def tableOpenH (st : ConvSt) : ConvSt :=
  appendMd "\n".data { st with is_in_table := true }

/-- `TagTable::OnHasLeftClosingTag` from the source (html2md.h lines
659-662). -/
def tableCloseH (st : ConvSt) : ConvSt :=
  appendMd "\n".data { st with is_in_table := false }

/-- `TagTableRow::OnHasLeftOpeningTag` from the source (html2md.h lines
666-668). -/
def tableRowOpenH (st : ConvSt) : ConvSt :=
  appendMd "\n".data st

/-- `TagTableRow::OnHasLeftClosingTag` from the source (html2md.h lines
669-681): append `'\n'` or `'|'` depending on the last character; then, if
the separator line accumulated by the header cells is non-empty, emit it on
its own line and clear it. -/
def tableRowCloseH (st : ConvSt) : ConvSt :=
  let st1 := if prevCh st = some '|' then appendMd "\n".data st else appendMd "|".data st
  if st1.tableLine ≠ [] then
    let st2 := if prevCh st1 ≠ some '\n' then appendMd "\n".data st1 else st1
    { st2 with md := st2.md ++ (st1.tableLine ++ "|\n".data), tableLine := [] }
  else st1

/-- `TagTableHeader::OnHasLeftOpeningTag` from the source (html2md.h lines
685-703): build one alignment cell of the separator line — `"| "`, then
`':'` for left/center alignment, then one `'-'`, then `": "` for
right/center alignment (a space otherwise) — append it to `tableLine`, and
emit `"| "` into the Markdown.  The extracted `align` attribute value is a
parameter. -/
def tableHeaderOpenH (align : List Char) (st : ConvSt) : ConvSt :=
  let line :=
    "| ".data
      ++ (if align = "left".data ∨ align = "center".data then [':'] else [])
      ++ ['-']
      ++ (if align = "right".data ∨ align = "center".data then ": ".data else [' '])
  appendMd "| ".data { st with tableLine := st.tableLine ++ line }

/-- `TagPre::OnHasLeftOpeningTag` from the source (html2md.h lines
527-545). -/
def preOpenH (st : ConvSt) : ConvSt :=
  let st0 := { st with is_in_pre := true }
  let st1 := if prevCh st0 ≠ some '\n' then appendMd "\n".data st0 else st0
  let st2 := if prevPrevCh st1 ≠ some '\n' then appendMd "\n".data st1 else st1
  let st3 :=
    if st2.index_blockquote ≠ 0 then
      shortenMd 1 (appendMd (repeatStr "> ".data st2.index_blockquote) st2)
    else st2
  let st4 :=
    if st3.is_in_list ∧ st3.prev_tag ≠ kTagParagraph then shortenMd 2 st3 else st3
  if st4.is_in_list ∨ st4.index_blockquote ≠ 0 then appendMd "\t\t".data st4
  else appendMd "```".data st4

/-- `TagPre::OnHasLeftClosingTag` from the source (html2md.h lines
546-551). -/
def preCloseH (st : ConvSt) : ConvSt :=
  let st0 := { st with is_in_pre := false }
  if st0.is_in_list = false ∧ st0.index_blockquote = 0 then appendMd "```\n".data st0
  else st0

/-- `TagCode::OnHasLeftOpeningTag` from the source (html2md.h lines
555-572): inside `pre`, drop a trailing space, and (outside lists and
blockquotes) append the class attribute value with its first nine
characters erased (`code.erase(0, 9)` — unconditionally, whatever the class
is) followed by a newline; outside `pre`, emit a backtick.  The extracted
`class` attribute value is a parameter. -/
def codeOpenH (cls : List Char) (st : ConvSt) : ConvSt :=
  let st0 := { st with is_in_code := true }
  if st0.is_in_pre then
    let st1 := if prevCh st0 = some ' ' then shortenMd 1 st0 else st0
    if st1.is_in_list ∨ st1.index_blockquote ≠ 0 then st1
    else
      let st2 := if cls ≠ [] then appendMd (cls.drop 9) st1 else st1
      appendMd "\n".data st2
  else appendMd "`".data st0

/-- `TagCode::OnHasLeftClosingTag` from the source (html2md.h lines
573-581). -/
def codeCloseH (st : ConvSt) : ConvSt :=
  let st0 := { st with is_in_code := false }
  if st0.is_in_pre then st0
  else
    let st1 := if prevCh st0 = some ' ' then shortenMd 1 st0 else st0
    appendMd "` ".data st1

/-- Modelled from the spec: plain text characters in Text state are appended
to the OutputBuffer verbatim (§4.1; inside `pre`, content is reproduced
verbatim with no reflow or trimming). -/
def textH (s : List Char) (st : ConvSt) : ConvSt :=
  { st with md := st.md ++ s }

/-- The dispatch events a scan produces for the handlers embedded here:
each constructor names the handler invoked when the corresponding tag's
`>` is consumed (§4.2), attribute values already extracted. -/
inductive ConvEvent where
  | olOpen | olClose | liOpen | liClose
  | tblOpen | tblClose | trOpen | trClose
  | thOpen (align : List Char)
  | prOpen | prClose
  | cdOpen (cls : List Char) | cdClose
  | aOpen (href title : List Char) | aClose
  | txt (s : List Char)

/-- Dispatch one event to its handler. -/
def convStep (st : ConvSt) : ConvEvent → ConvSt
  | ConvEvent.olOpen => orderedListOpenH st
  | ConvEvent.olClose => orderedListCloseH st
  | ConvEvent.liOpen => listItemOpenH st
  | ConvEvent.liClose => listItemCloseH st
  | ConvEvent.tblOpen => tableOpenH st
  | ConvEvent.tblClose => tableCloseH st
  | ConvEvent.trOpen => tableRowOpenH st
  | ConvEvent.trClose => tableRowCloseH st
  | ConvEvent.thOpen align => tableHeaderOpenH align st
  | ConvEvent.prOpen => preOpenH st
  | ConvEvent.prClose => preCloseH st
  | ConvEvent.cdOpen cls => codeOpenH cls st
  | ConvEvent.cdClose => codeCloseH st
  | ConvEvent.aOpen href title => anchorOpenH href title st
  | ConvEvent.aClose => anchorCloseH st
  | ConvEvent.txt s => textH s st

/-- Run a sequence of dispatch events from a state. -/
def runConv (es : List ConvEvent) (st : ConvSt) : ConvSt :=
  es.foldl convStep st

/-- Naive substring test: does `pat` occur contiguously inside `hay`? -/
def hasSub (pat hay : List Char) : Bool :=
  (List.range (hay.length + 1)).any (fun i => pat.isPrefixOf (hay.drop i))

/-- Dispatch events of converting `<ol><li>one</li><li>two</li></ol>`
followed by a second, independent `<ol><li>x`: the handler invocations the
scanner performs for that document. -/
def olEvents : List ConvEvent :=
  [ConvEvent.olOpen, ConvEvent.liOpen, ConvEvent.txt "one".data,
   ConvEvent.liClose, ConvEvent.liOpen, ConvEvent.txt "two".data,
   ConvEvent.liClose, ConvEvent.olClose,
   ConvEvent.olOpen, ConvEvent.liOpen, ConvEvent.txt "x".data]

/-- Dispatch events of a table whose single header row holds two
`<th align="right">` cells (with cell texts `A` and `B`). -/
def thRightEvents : List ConvEvent :=
  [ConvEvent.tblOpen, ConvEvent.trOpen,
   ConvEvent.thOpen "right".data, ConvEvent.txt "A".data,
   ConvEvent.thOpen "right".data, ConvEvent.txt "B".data,
   ConvEvent.trClose]

/-- Dispatch events of `<pre><code class="language-rust">fn x(){}</code></pre>`. -/
def preCodeEvents : List ConvEvent :=
  [ConvEvent.prOpen, ConvEvent.cdOpen "language-rust".data,
   ConvEvent.txt "fn x()\x7b\x7d".data, ConvEvent.cdClose, ConvEvent.prClose]

/-- A converter state inside an ordered list (outside tables), for
witnessing the list-item numbering property. -/
def olSt : ConvSt :=
  { convInit with is_in_ordered_list := true }

/-- A converter state inside `pre` (outside lists and blockquotes), for
witnessing the class-attribute truncation property. -/
def preSt0 : ConvSt :=
  { convInit with is_in_pre := true }

/-- C9: the loop of `utils::Repeat` terminates exactly for amounts below
`2 ^ 16`: its `uint16_t` counter `i` always holds a value below `65536`, so
for `amount = 65536` the guard `i < amount` holds at every iteration and the
loop never exits — conversion is NOT bounded by the input length once this
call is reached. -/
theorem repeat_loop_termination :
    (∀ amount : Nat, amount < 65536 → RepeatLoopTerminates amount) ∧
      ¬ RepeatLoopTerminates 65536 := by
  constructor
  · intro amount h
    refine ⟨amount, ?_⟩
    simp only [repeatGuardHolds, Nat.mod_eq_of_lt h]
    exact Nat.lt_irrefl amount
  · rintro ⟨n, hn⟩
    exact hn (Nat.mod_lt n (by norm_num))

/-- Witness for `repeat_loop_termination`: the loop for amount 3 exits. -/
theorem repeat_loop_termination_witness : RepeatLoopTerminates 3 :=
  repeat_loop_termination.1 3 (by norm_num)

/-- C10: inside `pre` (outside lists and blockquotes), a non-empty `class`
attribute value contributes exactly its first nine characters removed —
unconditionally, whether or not it starts with `language-`. -/
theorem code_class_erase_nine (cls : List Char) (st : ConvSt)
    (h1 : st.is_in_pre = true) (h2 : st.is_in_list = false)
    (h3 : st.index_blockquote = 0) (h4 : prevCh st ≠ some ' ')
    (h5 : cls ≠ []) :
    (codeOpenH cls st).md = st.md ++ cls.drop 9 ++ "\n".data := by
  have h4' : ¬ st.md.getLast? = some ' ' := by simpa [prevCh] using h4
  simp [codeOpenH, appendMd, prevCh, h1, h2, h3, h5, h4']

/-- Witness for `code_class_erase_nine`: a three-character class yields the
empty language token. -/
theorem code_class_erase_nine_witness :
    (codeOpenH "abc".data preSt0).md = preSt0.md ++ "abc".data.drop 9 ++ "\n".data :=
  code_class_erase_nine "abc".data preSt0 rfl rfl rfl (by decide) (by decide)

/-- C2, counterexample: with ancestry `nav, pre` (a `pre` inside a `nav`),
the source's `IsInIgnoredTag` suppresses content even though `pre` is an
ancestor, while the claim's rule (`claimedSuppression`) says the `pre`
ancestor overrides suppression — the claim's characterisation is false for
this stack. -/
theorem ignored_tag_pre_override_counterexample :
    IsInIgnoredTag ["nav".data, "pre".data] = true ∧
      claimedSuppression ["nav".data, "pre".data] = false := by
  decide

/-- C2, amended: a character in Text state is suppressed iff, walking the
ancestry stack from the outermost ancestor, some ignored tag occurs before
any `pre` or `title` ancestor (so `pre`/`title` overrides suppression only
when it stands closer to the document root than every ignored ancestor). -/
theorem ignored_tag_first_decisive (stack : List (List Char)) :
    IsInIgnoredTag stack = true ↔
      ∃ p t r, stack = p ++ t :: r ∧ IsIgnoredTag t = true ∧
        ∀ u ∈ p, IsIgnoredTag u = false ∧ u ≠ kTagPre ∧ u ≠ kTagTitle := by
  induction stack with
  | nil =>
    constructor
    · intro h
      simp [IsInIgnoredTag] at h
    · rintro ⟨p, t, r, h, -, -⟩
      exact absurd h.symm (by simp)
  | cons tag rest ih =>
    by_cases hpt : tag = kTagPre ∨ tag = kTagTitle
    · have hL : IsInIgnoredTag (tag :: rest) = false := by
        rcases hpt with h | h <;> simp [IsInIgnoredTag, h]
      rw [hL]
      constructor
      · intro h
        exact absurd h (by simp)
      · rintro ⟨p, t, r, heq, hig, hall⟩
        cases p with
        | nil =>
          have ht : t = tag := (List.cons.injEq _ _ _ _ ▸ heq.symm).1
          have : IsIgnoredTag t = false := by
            rcases hpt with h | h <;> simp [ht, h, IsIgnoredTag, kTagPre, kTagTitle,
              kTagTemplate, kTagStyle, kTagScript, kTagNoScript, kTagNav, nulCh]
          rw [this] at hig
          exact absurd hig (by simp)
        | cons u p' =>
          have hu : u = tag := by
            have := congrArg List.head? heq
            simp at this
            exact this.symm
          have := (hall u (by simp)).2
          rw [hu] at this
          rcases hpt with h | h
          · exact absurd h this.1
          · exact absurd h this.2
    · push_neg at hpt
      by_cases hig : IsIgnoredTag tag = true
      · have hL : IsInIgnoredTag (tag :: rest) = true := by
          simp [IsInIgnoredTag, hpt.1, hpt.2, hig]
        rw [hL]
        constructor
        · intro _
          exact ⟨[], tag, rest, rfl, hig, by simp⟩
        · intro _
          rfl
      · have hig' : IsIgnoredTag tag = false := by
          simpa using hig
        have hL : IsInIgnoredTag (tag :: rest) = IsInIgnoredTag rest := by
          simp [IsInIgnoredTag, hpt.1, hpt.2, hig']
        rw [hL, ih]
        constructor
        · rintro ⟨p, t, r, heq, ht, hall⟩
          exact ⟨tag :: p, t, r, by rw [heq, List.cons_append], ht, by
            intro u hu
            rcases List.mem_cons.mp hu with h | h
            · exact ⟨by rw [h]; exact hig', by rw [h]; exact hpt.1, by rw [h]; exact hpt.2⟩
            · exact hall u h⟩
        · rintro ⟨p, t, r, heq, ht, hall⟩
          cases p with
          | nil =>
            have htag : t = tag := (List.cons.injEq _ _ _ _ ▸ heq.symm).1
            rw [htag] at ht
            exact absurd ht (by simp [hig'])
          | cons u p' =>
            have hu : u = tag := by
              have := congrArg List.head? heq
              simp at this
              exact this.symm
            have hr : rest = p' ++ t :: r := by
              have := congrArg List.tail heq
              simpa using this
            exact ⟨p', t, r, hr, ht, fun v hv => hall v (by simp [hv])⟩

/-- Witness for `ignored_tag_first_decisive`: a bare `script` ancestor
suppresses. -/
theorem ignored_tag_first_decisive_witness :
    IsInIgnoredTag ["script".data] = true :=
  (ignored_tag_first_decisive ["script".data]).mpr
    ⟨[], "script".data, [], rfl, by decide, by simp⟩

/-- C7, counterexample: the Markdown generated for a header row of two
`<th align="right">` cells does not contain the separator `| ---: | ---: |`
the claim promises (each cell contributes a single dash, not three). -/
theorem th_right_separator_counterexample :
    hasSub "| ---: | ---: |".data (runConv thRightEvents convInit).md = false := by
  decide

/-- C7, amended: the header row of two `<th align="right">` cells is
followed, immediately beneath it, by the separator row `| -: | -: |` (one
dash per cell, colon on the right); in general a right-aligned header cell
appends exactly `"| -: "` to the separator line. -/
theorem th_right_separator_row :
    (runConv thRightEvents convInit).md = "\n\n| A| B|\n| -: | -: |\n".data ∧
      ∀ st : ConvSt,
        (tableHeaderOpenH "right".data st).tableLine = st.tableLine ++ "| -: ".data := by
  constructor
  · decide
  · intro st
    simp [tableHeaderOpenH, appendMd]

/-- C8: the `<pre><code class="language-rust">fn x(){}</code></pre>` block
emits an opening fence carrying the language token `rust` (the nine
characters `language-` stripped from the class) and reproduces the code
content verbatim. -/
theorem pre_code_language_fence :
    (runConv preCodeEvents convInit).md = "\n\n```rust\nfn x()\x7b\x7d```\n".data ∧
      hasSub "```rust\n".data (runConv preCodeEvents convInit).md = true ∧
      hasSub "fn x()\x7b\x7d".data (runConv preCodeEvents convInit).md = true := by
  refine ⟨by decide, by decide, by decide⟩

/-- C5: an anchor whose body collapses to nothing is discarded entirely:
when the closing handler runs with the output cursor immediately after the
`[` the opening handler emitted, the buffer is exactly what it was after the
right-trim and conditional blank of the opening handler — no `[`, no `](`,
no href, no `[]()` artifact is left in the Markdown. -/
theorem anchor_empty_body_discarded (href title : List Char) (st : ConvSt)
    (h1 : IsInIgnoredTag st.dom_tags = false) (h2 : st.prev_tag ≠ kTagImg) :
    (anchorCloseH (anchorOpenH href title st)).md = appendBlankMd (rtrimBlank st.md) := by
  have hopen : anchorOpenH href title st =
      { st with md := appendBlankMd (rtrimBlank st.md) ++ "[".data,
                current_title := title, current_href := href } := by
    simp [anchorOpenH, h1, h2, appendMd, appendBlank]
  rw [hopen]
  have hlast : (appendBlankMd (rtrimBlank st.md) ++ "[".data).getLast? = some '[' := by
    simp
  simp [anchorCloseH, h1, prevCh, shortenMd, hlast]

/-- Witness for `anchor_empty_body_discarded`: from the empty document,
`<a href="x"></a>` leaves a single blank in the buffer and no link markup. -/
theorem anchor_empty_body_discarded_witness :
    (anchorCloseH (anchorOpenH "x".data [] convInit)).md = [' '] :=
  anchor_empty_body_discarded "x".data [] convInit (by decide) (by decide)

/-- C6: ordered-list numbering.  Converting
`<ol><li>one</li><li>two</li></ol>` followed by a second independent
`<ol><li>x` yields item markers exactly `1.` then `2.`, restarting at `1.`
in the second list; in general, inside an ordered list (outside tables) a
list item emits the marker `N. ` where `N` is the incremented running
counter, and opening an `<ol>` resets the counter to 0. -/
theorem ordered_list_numbering :
    (runConv olEvents convInit).md = "\n1. one\n2. two\n\n\n1. x".data ∧
      (∀ st : ConvSt, st.is_in_table = false → st.is_in_ordered_list = true →
        (listItemOpenH st).md = st.md ++ natChars (st.index_li + 1) ++ ". ".data ∧
          (listItemOpenH st).index_li = st.index_li + 1) ∧
      ∀ st : ConvSt, st.is_in_table = false → (orderedListOpenH st).index_li = 0 := by
  refine ⟨by decide, ?_, ?_⟩
  · intro st h1 h2
    constructor
    · simp [listItemOpenH, h1, h2, appendMd, natChars]
    · simp [listItemOpenH, h1, h2, appendMd]
  · intro st h1
    simp [orderedListOpenH, h1, appendMd]

/-- Witness for `ordered_list_numbering`: the first item of a fresh ordered
list is numbered 1. -/
theorem ordered_list_numbering_witness :
    (listItemOpenH olSt).md = olSt.md ++ natChars (olSt.index_li + 1) ++ ". ".data :=
  (ordered_list_numbering.2.1 olSt rfl rfl).1

/-- Running the AncestryStack updates of a well-nested event sequence from
any stack returns that stack unchanged. -/
theorem runStack_balanced {es : List TagEvent} (h : BalancedEvents es) :
    ∀ st, runStack es st = st := by
  induction h with
  | nil => intro st; rfl
  | node t hi hr ihi ihr =>
    intro st
    show runStack (TagEvent.opening t :: (_ ++ TagEvent.closing t :: _)) st = st
    rw [runStack, List.foldl_cons, List.foldl_append]
    have h1 : List.foldl stackStep (stackStep st (TagEvent.opening t)) _ = st ++ [t] :=
      ihi (st ++ [t])
    rw [h1, List.foldl_cons]
    have h2 : stackStep (st ++ [t]) (TagEvent.closing t) = st := by
      simp [stackStep]
    rw [h2]
    exact ihr st

/-- C1: the well-formedness verdict.  For every input whose tag events are
well nested (every opened tag matched by a corresponding close tag, properly
nested), the verdict is `true`; the verdict is `true` exactly when the
ancestry stack is empty once the scan completes; and for the dangling-open
input `<div><p>text` it is `false`. -/
theorem verdict_ok :
    (∀ cs : List Char, BalancedEvents (scanEvents cs) → converterOk cs = true) ∧
      (∀ cs : List Char, converterOk cs = true ↔ runStack (scanEvents cs) [] = []) ∧
      converterOk "<div><p>text".data = false := by
  refine ⟨?_, ?_, by decide⟩
  · intro cs h
    simp [converterOk, runStack_balanced h]
  · intro cs
    simp [converterOk, List.isEmpty_iff]

/-- Witness for `verdict_ok`: the fully closed input `<b>x</b>` gets
verdict `true`. -/
theorem verdict_ok_witness : converterOk "<b>x</b>".data = true := by
  have h : scanEvents "<b>x</b>".data =
      [TagEvent.opening "b".data, TagEvent.closing "b".data] := by decide
  exact verdict_ok.1 "<b>x</b>".data
    (by rw [h]
        exact BalancedEvents.node "b".data BalancedEvents.nil BalancedEvents.nil)

/-- Running the collapsing pass over `k` blank lines followed by a non-blank
line keeps `min k (2 - j)` of them, `j` being the number of blanks of the
current run already kept. -/
theorem collapseAux_replicate (b : List Char) (hb : b ≠ []) :
    ∀ (k j : Nat) (rest : List (List Char)),
      collapseAux j (List.replicate k [] ++ b :: rest)
        = List.replicate (min k (2 - j)) ([] : List Char) ++ b :: collapseAux 0 rest := by
  intro k
  induction k with
  | zero =>
    intro j rest
    simp [collapseAux, hb]
  | succ k ih =>
    intro j rest
    rw [List.replicate_succ, List.cons_append]
    by_cases hj : j < 2
    · have harith : min (k + 1) (2 - j) = min k (2 - (j + 1)) + 1 := by omega
      rw [harith, List.replicate_succ]
      simp only [collapseAux, if_pos rfl, if_pos hj, ih (j + 1) rest]
      simp
    · have h2 : 2 - j = 0 := by omega
      have h3 : 2 - (j + 1) = 0 := by omega
      simp only [collapseAux, if_pos rfl, if_neg hj, ih (j + 1) rest, h2, h3]
      simp

/-- C3: the normalizer's blank-line pass collapses every interior run of
three or more consecutive blank lines down to exactly two, and leaves runs
of fewer than three blank lines untouched. -/
theorem blank_run_collapse (a b : List Char) (k : Nat) (rest : List (List Char))
    (ha : a ≠ []) (hb : b ≠ []) :
    (3 ≤ k → collapseBlankLines (a :: (List.replicate k [] ++ b :: rest))
        = a :: (List.replicate 2 [] ++ collapseBlankLines (b :: rest))) ∧
      (k < 3 → collapseBlankLines (a :: (List.replicate k [] ++ b :: rest))
        = a :: (List.replicate k [] ++ collapseBlankLines (b :: rest))) := by
  have h0 : collapseBlankLines (a :: (List.replicate k [] ++ b :: rest))
      = a :: collapseAux 0 (List.replicate k [] ++ b :: rest) := by
    simp [collapseBlankLines, collapseAux, ha]
  have h2 : collapseBlankLines (b :: rest) = b :: collapseAux 0 rest := by
    simp [collapseBlankLines, collapseAux, hb]
  have h1 := collapseAux_replicate b hb k 0 rest
  constructor
  · intro h3
    have hm : min k (2 - 0) = 2 := by omega
    rw [h0, h1, hm, h2]
  · intro h3
    have hm : min k (2 - 0) = k := by omega
    rw [h0, h1, hm, h2]

/-- Witness for `blank_run_collapse`: a run of three blank lines between
`a` and `b` collapses to exactly two. -/
theorem blank_run_collapse_witness :
    collapseBlankLines (['a'] :: (List.replicate 3 [] ++ ['b'] :: []))
      = ['a'] :: (List.replicate 2 [] ++ collapseBlankLines (['b'] :: [])) :=
  (blank_run_collapse ['a'] ['b'] 3 [] (by decide) (by decide)).1 (by norm_num)

/-- The head of a whitespace-left-trimmed list is not whitespace. -/
theorem dropLeadWs_head (l : List Char) :
    ∀ c, (dropLeadWs l).head? = some c → isWsCh c = false := by
  induction l with
  | nil => intro c h; simp [dropLeadWs] at h
  | cons a l ih =>
    intro c h
    by_cases ha : isWsCh a
    · rw [dropLeadWs, if_pos ha] at h
      exact ih c h
    · rw [dropLeadWs, if_neg ha] at h
      simp at h
      rw [← h]
      simpa using ha

/-- The last element of a whitespace-right-trimmed list is not whitespace. -/
theorem dropTrailWs_getLast (l : List Char) :
    ∀ c, (dropTrailWs l).getLast? = some c → isWsCh c = false := by
  induction l with
  | nil => intro c h; simp [dropTrailWs] at h
  | cons a l ih =>
    intro c h
    rw [dropTrailWs] at h
    rcases hr : dropTrailWs l with - | ⟨d, r⟩
    · rw [hr] at h
      by_cases ha : isWsCh a
      · rw [if_pos ha] at h
        simp at h
      · rw [if_neg ha] at h
        simp at h
        rw [← h]
        simpa using ha
    · rw [hr] at h
      rw [List.getLast?_cons_cons] at h
      rw [← hr] at h
      exact ih c h

/-- Right-trimming keeps the first element (or empties the list). -/
theorem dropTrailWs_head (l : List Char) :
    dropTrailWs l = [] ∨ (dropTrailWs l).head? = l.head? := by
  cases l with
  | nil => exact Or.inl rfl
  | cons a l =>
    rw [dropTrailWs]
    rcases hr : dropTrailWs l with - | ⟨d, r⟩
    · by_cases ha : isWsCh a
      · exact Or.inl (by rw [if_pos ha])
      · exact Or.inr (by rw [if_neg ha]; rfl)
    · exact Or.inr rfl

/-- Trimming produces a trimmed list. -/
theorem trimChars_trimmed (l : List Char) : TrimmedChars (trimChars l) := by
  constructor
  · intro c h
    rcases dropTrailWs_head (dropLeadWs l) with h1 | h1
    · rw [trimChars, h1] at h
      simp at h
    · rw [trimChars, h1] at h
      exact dropLeadWs_head l c h
  · intro c h
    exact dropTrailWs_getLast (dropLeadWs l) c h

/-- Left-trimming is the identity on lists whose head is not whitespace. -/
theorem dropLeadWs_of_head (l : List Char)
    (h : ∀ c, l.head? = some c → isWsCh c = false) : dropLeadWs l = l := by
  cases l with
  | nil => rfl
  | cons a l =>
    have := h a rfl
    rw [dropLeadWs, if_neg (by simp [this])]

/-- Right-trimming is the identity on lists whose last element is not
whitespace. -/
theorem dropTrailWs_of_getLast (l : List Char)
    (h : ∀ c, l.getLast? = some c → isWsCh c = false) : dropTrailWs l = l := by
  induction l with
  | nil => rfl
  | cons a l ih =>
    cases l with
    | nil =>
      have := h a rfl
      rw [dropTrailWs, dropTrailWs, if_neg (by simp [this])]
    | cons b l' =>
      have hl : dropTrailWs (b :: l') = b :: l' := by
        apply ih
        intro c hc
        apply h
        rwa [List.getLast?_cons_cons]
      rw [dropTrailWs, hl]

/-- Trimming is the identity on trimmed lists. -/
theorem trimChars_of_trimmed (l : List Char) (h : TrimmedChars l) :
    trimChars l = l := by
  rw [trimChars, dropLeadWs_of_head l h.1, dropTrailWs_of_getLast l h.2]

/-- Trimming is idempotent. -/
theorem trimChars_idem (l : List Char) : trimChars (trimChars l) = trimChars l :=
  trimChars_of_trimmed (trimChars l) (trimChars_trimmed l)

/-- Left-trimming only removes elements. -/
theorem mem_dropLeadWs (l : List Char) : ∀ x ∈ dropLeadWs l, x ∈ l := by
  induction l with
  | nil => intro x h; simp [dropLeadWs] at h
  | cons a l ih =>
    intro x h
    by_cases ha : isWsCh a
    · rw [dropLeadWs, if_pos ha] at h
      exact List.mem_cons_of_mem a (ih x h)
    · rwa [dropLeadWs, if_neg ha] at h

/-- Right-trimming only removes elements. -/
theorem mem_dropTrailWs (l : List Char) : ∀ x ∈ dropTrailWs l, x ∈ l := by
  induction l with
  | nil => intro x h; simp [dropTrailWs] at h
  | cons a l ih =>
    intro x h
    rw [dropTrailWs] at h
    rcases hr : dropTrailWs l with - | ⟨d, r⟩
    · rw [hr] at h
      by_cases ha : isWsCh a
      · rw [if_pos ha] at h
        simp at h
      · rw [if_neg ha] at h
        simp at h
        simp [h]
    · rw [hr] at h
      rcases List.mem_cons.mp h with h1 | h1
      · simp [h1]
      · exact List.mem_cons_of_mem a (ih x (hr ▸ h1))

/-- Trimming only removes elements. -/
theorem mem_trimChars (l : List Char) : ∀ x ∈ trimChars l, x ∈ l := by
  intro x h
  exact mem_dropLeadWs l x (mem_dropTrailWs (dropLeadWs l) x h)

/-- Splitting never produces the empty list of lines. -/
theorem toLines_ne_nil (cs : List Char) : toLines cs ≠ [] := by
  cases cs with
  | nil => simp [toLines]
  | cons c cs =>
    rw [toLines]
    by_cases hc : c = '\n'
    · simp [hc]
    · rcases h : toLines cs with - | ⟨l, ls⟩ <;> simp [hc, h]

/-- No line produced by splitting contains a newline. -/
theorem toLines_no_newline (cs : List Char) :
    ∀ l ∈ toLines cs, '\n' ∉ l := by
  induction cs with
  | nil =>
    intro l h
    simp [toLines] at h
    simp [h]
  | cons c cs ih =>
    intro l h
    rw [toLines] at h
    by_cases hc : c = '\n'
    · rw [if_pos hc] at h
      rcases List.mem_cons.mp h with h1 | h1
      · simp [h1]
      · exact ih l h1
    · rw [if_neg hc] at h
      rcases hl : toLines cs with - | ⟨m, ms⟩
      · exact absurd hl (toLines_ne_nil cs)
      · rw [hl] at h
        rcases List.mem_cons.mp h with h1 | h1
        · subst h1
          intro hmem
          rcases List.mem_cons.mp hmem with h2 | h2
          · exact hc h2.symm
          · exact ih m (hl ▸ List.mem_cons_self m ms) h2
        · exact ih l (hl ▸ List.mem_cons_of_mem m h1)

/-- Splitting a newline-free list yields that single line. -/
theorem toLines_of_no_newline (l : List Char) (h : '\n' ∉ l) :
    toLines l = [l] := by
  induction l with
  | nil => rfl
  | cons c cs ih =>
    have hc : ¬ c = '\n' := fun hc => h (by simp [hc])
    have hcs : '\n' ∉ cs := fun hm => h (List.mem_cons_of_mem c hm)
    rw [toLines, if_neg hc, ih hcs]

/-- Splitting after a newline-free first line peels that line off. -/
theorem toLines_append_newline (l t : List Char) (h : '\n' ∉ l) :
    toLines (l ++ '\n' :: t) = l :: toLines t := by
  induction l with
  | nil => simp [toLines]
  | cons c cs ih =>
    have hc : ¬ c = '\n' := fun hc => h (by simp [hc])
    have hcs : '\n' ∉ cs := fun hm => h (List.mem_cons_of_mem c hm)
    rw [List.cons_append, toLines, if_neg hc, ih hcs]

/-- Splitting inverts joining for a non-empty list of newline-free lines. -/
theorem toLines_fromLines (L : List (List Char)) (h0 : L ≠ [])
    (h1 : ∀ l ∈ L, '\n' ∉ l) : toLines (fromLines L) = L := by
  induction L with
  | nil => exact absurd rfl h0
  | cons l L ih =>
    cases L with
    | nil =>
      rw [fromLines, toLines_of_no_newline l (h1 l (by simp))]
    | cons m L' =>
      rw [show fromLines (l :: m :: L') = l ++ '\n' :: fromLines (m :: L') from rfl]
      rw [toLines_append_newline l _ (h1 l (by simp))]
      rw [ih (List.cons_ne_nil m L') (fun x hx => h1 x (List.mem_cons_of_mem l hx))]

/-- Being a collapse fixpoint is downward monotone in the blank counter. -/
theorem collapsedLines_mono {j : Nat} {ls : List (List Char)}
    (h : CollapsedLines j ls) : ∀ i ≤ j, CollapsedLines i ls := by
  induction h with
  | nil k => intro i _; exact CollapsedLines.nil i
  | blank hk hls ih =>
    intro i hi
    exact CollapsedLines.blank (by omega) (ih _ (by omega))
  | line hl hls =>
    intro i _
    exact CollapsedLines.line hl hls

/-- The output of the collapsing pass is a collapse fixpoint. -/
theorem collapseAux_collapsed (ls : List (List Char)) :
    ∀ j, CollapsedLines j (collapseAux j ls) := by
  induction ls with
  | nil => intro j; exact CollapsedLines.nil j
  | cons l ls ih =>
    intro j
    by_cases hl : l = []
    · subst hl
      by_cases hj : j < 2
      · rw [collapseAux, if_pos rfl, if_pos hj]
        exact CollapsedLines.blank hj (ih (j + 1))
      · rw [collapseAux, if_pos rfl, if_neg hj]
        exact collapsedLines_mono (ih (j + 1)) j (by omega)
    · rw [collapseAux, if_neg hl]
      exact CollapsedLines.line hl (ih 0)

/-- The collapsing pass is the identity on collapse fixpoints. -/
theorem collapseAux_of_collapsed {j : Nat} {ls : List (List Char)}
    (h : CollapsedLines j ls) : collapseAux j ls = ls := by
  induction h with
  | nil k => rfl
  | blank hk hls ih =>
    rw [collapseAux, if_pos rfl, if_pos hk, ih]
    rfl
  | line hl hls ih =>
    rw [collapseAux, if_neg hl, ih]

/-- Every line the collapsing pass outputs is blank or one of its inputs. -/
theorem mem_collapseAux (ls : List (List Char)) :
    ∀ j x, x ∈ collapseAux j ls → x = [] ∨ x ∈ ls := by
  induction ls with
  | nil => intro j x h; simp [collapseAux] at h
  | cons l ls ih =>
    intro j x h
    by_cases hl : l = []
    · subst hl
      rw [collapseAux, if_pos rfl] at h
      rcases List.mem_append.mp h with h1 | h1
      · by_cases hj : j < 2
        · rw [if_pos hj] at h1
          simp at h1
          exact Or.inl h1
        · rw [if_neg hj] at h1
          simp at h1
      · rcases ih (j + 1) x h1 with h2 | h2
        · exact Or.inl h2
        · exact Or.inr (List.mem_cons_of_mem [] h2)
    · rw [collapseAux, if_neg hl] at h
      rcases List.mem_cons.mp h with h1 | h1
      · exact Or.inr (by simp [h1])
      · rcases ih 0 x h1 with h2 | h2
        · exact Or.inl h2
        · exact Or.inr (List.mem_cons_of_mem l h2)

/-- Dropping leading blank lines preserves collapse fixpoints. -/
theorem collapsedLines_dropLead {j : Nat} {ls : List (List Char)}
    (h : CollapsedLines j ls) : CollapsedLines j (dropLeadBlankLines ls) := by
  induction h with
  | nil k => exact CollapsedLines.nil k
  | blank hk hls ih =>
    rw [dropLeadBlankLines, List.dropWhile_cons, if_pos (by simp)]
    exact collapsedLines_mono ih _ (by omega)
  | line hl hls =>
    rw [dropLeadBlankLines, List.dropWhile_cons, if_neg (by simp [hl])]
    exact CollapsedLines.line hl hls

/-- Dropping trailing blank lines preserves collapse fixpoints. -/
theorem collapsedLines_dropTrail {j : Nat} {ls : List (List Char)}
    (h : CollapsedLines j ls) : CollapsedLines j (dropTrailBlankLines ls) := by
  induction h with
  | nil k => exact CollapsedLines.nil k
  | blank hk hls ih =>
    rw [dropTrailBlankLines]
    rcases hr : dropTrailBlankLines _ with - | ⟨d, r⟩
    · rw [if_pos rfl]
      exact CollapsedLines.nil _
    · rw [hr] at ih
      exact CollapsedLines.blank hk ih
  | line hl hls ih =>
    rw [dropTrailBlankLines]
    rcases hr : dropTrailBlankLines _ with - | ⟨d, r⟩
    · rw [if_neg hl]
      exact CollapsedLines.line hl (CollapsedLines.nil 0)
    · rw [hr] at ih
      exact CollapsedLines.line hl ih

/-- Dropping trailing blank lines leaves a list whose last line (if any) is
non-blank. -/
theorem dropTrailBlankLines_last (ls : List (List Char)) :
    dropTrailBlankLines ls = [] ∨
      ∃ m, (dropTrailBlankLines ls).getLast? = some m ∧ m ≠ [] := by
  induction ls with
  | nil => exact Or.inl rfl
  | cons l ls ih =>
    rw [dropTrailBlankLines]
    rcases hr : dropTrailBlankLines ls with - | ⟨d, r⟩
    · by_cases hl : l = []
      · exact Or.inl (by rw [if_pos hl])
      · refine Or.inr ⟨l, ?_, hl⟩
        rw [if_neg hl]
        rfl
    · rw [hr] at ih
      rcases ih with h | ⟨m, hm, hne⟩
      · exact absurd h (by simp)
      · refine Or.inr ⟨m, ?_, hne⟩
        show (l :: d :: r).getLast? = some m
        rw [List.getLast?_cons_cons]
        exact hm

/-- Dropping trailing blank lines keeps the first line (or empties). -/
theorem dropTrailBlankLines_head (ls : List (List Char)) :
    dropTrailBlankLines ls = [] ∨ (dropTrailBlankLines ls).head? = ls.head? := by
  cases ls with
  | nil => exact Or.inl rfl
  | cons l ls =>
    rw [dropTrailBlankLines]
    rcases hr : dropTrailBlankLines ls with - | ⟨d, r⟩
    · by_cases hl : l = []
      · exact Or.inl (by rw [if_pos hl])
      · exact Or.inr (by rw [if_neg hl]; rfl)
    · exact Or.inr rfl

/-- Dropping trailing blank lines is the identity when the last line is
already non-blank. -/
theorem dropTrailBlankLines_of_getLast (ls : List (List Char))
    (h : ∀ m, ls.getLast? = some m → m ≠ []) : dropTrailBlankLines ls = ls := by
  induction ls with
  | nil => rfl
  | cons l ls ih =>
    cases ls with
    | nil =>
      have := h l rfl
      rw [dropTrailBlankLines, dropTrailBlankLines, if_neg this]
    | cons m ls' =>
      have hrec : dropTrailBlankLines (m :: ls') = m :: ls' := by
        apply ih
        intro x hx
        apply h
        rwa [List.getLast?_cons_cons]
      rw [dropTrailBlankLines, hrec]

/-- Dropping trailing blank lines only removes lines. -/
theorem mem_dropTrailBlankLines (ls : List (List Char)) :
    ∀ x ∈ dropTrailBlankLines ls, x ∈ ls := by
  induction ls with
  | nil => intro x h; simp [dropTrailBlankLines] at h
  | cons l ls ih =>
    intro x h
    rw [dropTrailBlankLines] at h
    rcases hr : dropTrailBlankLines ls with - | ⟨d, r⟩
    · rw [hr] at h
      by_cases hl : l = []
      · rw [if_pos hl] at h
        simp at h
      · rw [if_neg hl] at h
        simp at h
        simp [h]
    · rw [hr] at h
      rcases List.mem_cons.mp h with h1 | h1
      · simp [h1]
      · exact List.mem_cons_of_mem l (ih x (hr ▸ h1))

/-- The head of the leading-blank-dropped list is non-blank. -/
theorem dropLeadBlankLines_head (ls : List (List Char)) :
    ∀ x, (dropLeadBlankLines ls).head? = some x → x ≠ [] := by
  induction ls with
  | nil => intro x h; simp [dropLeadBlankLines] at h
  | cons l ls ih =>
    intro x h
    by_cases hl : l = []
    · rw [dropLeadBlankLines, List.dropWhile_cons, if_pos (by simp [hl])] at h
      exact ih x h
    · rw [dropLeadBlankLines, List.dropWhile_cons, if_neg (by simp [hl])] at h
      simp at h
      rw [← h]
      exact hl

/-- A join is empty only for no lines or a single empty line. -/
theorem fromLines_eq_nil (L : List (List Char)) (h : fromLines L = []) :
    L = [] ∨ L = [[]] := by
  cases L with
  | nil => exact Or.inl rfl
  | cons l L' =>
    cases L' with
    | nil =>
      rw [fromLines] at h
      exact Or.inr (by rw [h])
    | cons m L'' =>
      rw [show fromLines (l :: m :: L'') = l ++ '\n' :: fromLines (m :: L'') from rfl] at h
      rcases List.append_eq_nil.mp h with ⟨-, h2⟩
      exact absurd h2 (by simp)

/-- Left whitespace-trimming a join of trimmed lines drops exactly the
leading blank lines. -/
theorem dropLeadWs_fromLines (L : List (List Char))
    (h : ∀ l ∈ L, TrimmedChars l) :
    dropLeadWs (fromLines L) = fromLines (dropLeadBlankLines L) := by
  induction L with
  | nil => rfl
  | cons l L' ih =>
    cases L' with
    | nil =>
      by_cases hl : l = []
      · subst hl
        rfl
      · rcases hc : l with - | ⟨c, l'⟩
        · exact absurd hc hl
        · have hws : isWsCh c = false := (h l (by simp)).1 c (by rw [hc]; rfl)
          subst hc
          show dropLeadWs (c :: l') = fromLines (dropLeadBlankLines [c :: l'])
          rw [dropLeadBlankLines, List.dropWhile_cons, if_neg (by simp [hl])]
          show dropLeadWs (c :: l') = c :: l'
          rw [dropLeadWs, if_neg (by simp [hws])]
    | cons m L'' =>
      rw [show fromLines (l :: m :: L'') = l ++ '\n' :: fromLines (m :: L'') from rfl]
      by_cases hl : l = []
      · subst hl
        rw [List.nil_append, dropLeadWs, if_pos (by simp [isWsCh])]
        rw [dropLeadBlankLines, List.dropWhile_cons, if_pos (by simp)]
        exact ih (fun x hx => h x (List.mem_cons_of_mem [] hx))
      · rcases hc : l with - | ⟨c, l'⟩
        · exact absurd hc hl
        · have hws : isWsCh c = false := (h l (by simp)).1 c (by rw [hc]; rfl)
          subst hc
          rw [List.cons_append, dropLeadWs, if_neg (by simp [hws])]
          rw [dropLeadBlankLines, List.dropWhile_cons, if_neg (by simp [hl])]
          rw [show fromLines ((c :: l') :: m :: L'') = (c :: l') ++ '\n' :: fromLines (m :: L'') from rfl]
          rw [List.cons_append]

/-- Right-trimming an append whose right part trims away reduces to the
left part. -/
theorem dropTrailWs_append_nil (y : List Char) (hy : dropTrailWs y = []) :
    ∀ x : List Char, dropTrailWs (x ++ y) = dropTrailWs x := by
  intro x
  induction x with
  | nil => simpa using hy
  | cons c x' ih =>
    rw [List.cons_append, dropTrailWs, ih, dropTrailWs]

/-- Right-trimming an append whose right part does not trim away leaves the
left part untouched. -/
theorem dropTrailWs_append_ne (y : List Char) (hy : dropTrailWs y ≠ []) :
    ∀ x : List Char, dropTrailWs (x ++ y) = x ++ dropTrailWs y := by
  intro x
  induction x with
  | nil => rfl
  | cons c x' ih =>
    rw [List.cons_append, dropTrailWs, ih]
    rcases hr : x' ++ dropTrailWs y with - | ⟨d, r⟩
    · exact absurd (List.append_eq_nil.mp hr).2 hy
    · rw [List.cons_append, hr]

/-- Right whitespace-trimming a join of trimmed lines drops exactly the
trailing blank lines. -/
theorem dropTrailWs_fromLines (L : List (List Char))
    (h : ∀ l ∈ L, TrimmedChars l) :
    dropTrailWs (fromLines L) = fromLines (dropTrailBlankLines L) := by
  induction L with
  | nil => rfl
  | cons l L' ih =>
    cases L' with
    | nil =>
      by_cases hl : l = []
      · subst hl
        rfl
      · show dropTrailWs l = fromLines (dropTrailBlankLines [l])
        rw [dropTrailBlankLines, dropTrailBlankLines]
        rw [if_neg hl]
        show dropTrailWs l = l
        exact dropTrailWs_of_getLast l (h l (by simp)).2
    | cons m L'' =>
      have hF := ih (fun x hx => h x (List.mem_cons_of_mem l hx))
      rw [show fromLines (l :: m :: L'') = l ++ '\n' :: fromLines (m :: L'') from rfl]
      rcases hFnil : dropTrailWs (fromLines (m :: L'')) with - | ⟨d, r⟩
      · -- the whole tail trims away, hence its lines were all blank
        have hdt : dropTrailBlankLines (m :: L'') = [] := by
          rcases fromLines_eq_nil _ (hF ▸ hFnil) with h1 | h1
          · exact h1
          · rcases dropTrailBlankLines_last (m :: L'') with h2 | ⟨x, hx, hxne⟩
            · exact h2
            · rw [h1] at hx
              simp at hx
              exact absurd hx hxne
        have hy : dropTrailWs ('\n' :: fromLines (m :: L'')) = [] := by
          rw [dropTrailWs, hFnil, if_pos (by simp [isWsCh])]
        rw [dropTrailWs_append_nil _ hy l]
        rw [dropTrailBlankLines, hdt]
        by_cases hl : l = []
        · rw [if_pos hl, hl]
          rfl
        · rw [if_neg hl]
          show dropTrailWs l = fromLines [l]
          rw [dropTrailWs_of_getLast l (h l (by simp)).2]
          rfl
      · -- the tail keeps content
        have hy : dropTrailWs ('\n' :: fromLines (m :: L'')) =
            '\n' :: dropTrailWs (fromLines (m :: L'')) := by
          rw [dropTrailWs, hFnil]
        have hyne : dropTrailWs ('\n' :: fromLines (m :: L'')) ≠ [] := by
          rw [hy]
          simp
        rw [dropTrailWs_append_ne _ hyne l, hy, hF]
        have hdtne : dropTrailBlankLines (m :: L'') ≠ [] := by
          intro hcon
          rw [hcon] at hF
          rw [hF] at hFnil
          simp [fromLines] at hFnil
        rcases hdt : dropTrailBlankLines (m :: L'') with - | ⟨u, v⟩
        · exact absurd hdt hdtne
        · have hstep : dropTrailBlankLines (l :: m :: L'') = l :: u :: v := by
            rw [dropTrailBlankLines, hdt]
          rw [hstep]
          rw [show fromLines (l :: u :: v) = l ++ '\n' :: fromLines (u :: v) from rfl]

/-- Whole-document trimming of a join of trimmed lines drops exactly the
leading and trailing blank lines. -/
theorem trimChars_fromLines (L : List (List Char))
    (h : ∀ l ∈ L, TrimmedChars l) :
    trimChars (fromLines L) =
      fromLines (dropTrailBlankLines (dropLeadBlankLines L)) := by
  rw [trimChars, dropLeadWs_fromLines L h]
  exact dropTrailWs_fromLines (dropLeadBlankLines L)
    (fun x hx => h x ((List.dropWhile_sublist _).subset hx))

/-- C4: the normalizer pass — per-line trimming, blank-line collapsing,
whole-document trim — is idempotent: applying the cleanup twice yields the
same result as applying it once. -/
theorem cleanUpMarkdown_idem (cs : List Char) :
    CleanUpMarkdown (CleanUpMarkdown cs) = CleanUpMarkdown cs := by
  have hTrimM : ∀ l ∈ (toLines cs).map trimChars, TrimmedChars l := by
    intro l hl
    rcases List.mem_map.mp hl with ⟨x, -, rfl⟩
    exact trimChars_trimmed x
  have hNlM : ∀ l ∈ (toLines cs).map trimChars, '\n' ∉ l := by
    intro l hl
    rcases List.mem_map.mp hl with ⟨x, hx, rfl⟩
    intro hmem
    exact toLines_no_newline cs x hx (mem_trimChars x _ hmem)
  have hTrimL : ∀ l ∈ collapseAux 0 ((toLines cs).map trimChars), TrimmedChars l := by
    intro l hl
    rcases mem_collapseAux _ 0 l hl with h | h
    · subst h
      exact ⟨fun c hc => by simp at hc, fun c hc => by simp at hc⟩
    · exact hTrimM l h
  have hNlL : ∀ l ∈ collapseAux 0 ((toLines cs).map trimChars), '\n' ∉ l := by
    intro l hl
    rcases mem_collapseAux _ 0 l hl with h | h
    · subst h
      simp
    · exact hNlM l h
  have hfirst : CleanUpMarkdown cs =
      fromLines (dropTrailBlankLines (dropLeadBlankLines
        (collapseAux 0 ((toLines cs).map trimChars)))) := by
    rw [CleanUpMarkdown, TidyAllLines, collapseBlankLines]
    exact trimChars_fromLines _ hTrimL
  have hsubL' : ∀ l ∈ dropTrailBlankLines (dropLeadBlankLines
      (collapseAux 0 ((toLines cs).map trimChars))),
      l ∈ collapseAux 0 ((toLines cs).map trimChars) := by
    intro l hl
    exact (List.dropWhile_sublist _).subset (mem_dropTrailBlankLines _ l hl)
  have hTrimL' : ∀ l ∈ dropTrailBlankLines (dropLeadBlankLines
      (collapseAux 0 ((toLines cs).map trimChars))), TrimmedChars l :=
    fun l hl => hTrimL l (hsubL' l hl)
  have hNlL' : ∀ l ∈ dropTrailBlankLines (dropLeadBlankLines
      (collapseAux 0 ((toLines cs).map trimChars))), '\n' ∉ l :=
    fun l hl => hNlL l (hsubL' l hl)
  have hColl : CollapsedLines 0 (dropTrailBlankLines (dropLeadBlankLines
      (collapseAux 0 ((toLines cs).map trimChars)))) :=
    collapsedLines_dropTrail (collapsedLines_dropLead (collapseAux_collapsed _ 0))
  rw [hfirst]
  rcases hnil : dropTrailBlankLines (dropLeadBlankLines
      (collapseAux 0 ((toLines cs).map trimChars))) with - | ⟨h0, t0⟩
  · decide
  · rw [← hnil]
    rw [CleanUpMarkdown, TidyAllLines, collapseBlankLines]
    rw [toLines_fromLines _ (by rw [hnil]; simp) hNlL']
    have hmapid : (dropTrailBlankLines (dropLeadBlankLines
        (collapseAux 0 ((toLines cs).map trimChars)))).map trimChars =
        dropTrailBlankLines (dropLeadBlankLines
          (collapseAux 0 ((toLines cs).map trimChars))) := by
      have h1 : ∀ x ∈ dropTrailBlankLines (dropLeadBlankLines
          (collapseAux 0 ((toLines cs).map trimChars))), trimChars x = id x :=
        fun x hx => trimChars_of_trimmed x (hTrimL' x hx)
      rw [List.map_congr_left h1, List.map_id]
    rw [hmapid]
    rw [collapseAux_of_collapsed hColl]
    rw [trimChars_fromLines _ hTrimL']
    have hhead : ∀ x, (dropTrailBlankLines (dropLeadBlankLines
        (collapseAux 0 ((toLines cs).map trimChars)))).head? = some x → x ≠ [] := by
      intro x hx
      rcases dropTrailBlankLines_head (dropLeadBlankLines
          (collapseAux 0 ((toLines cs).map trimChars))) with h1 | h1
      · rw [h1] at hx
        simp at hx
      · rw [h1] at hx
        exact dropLeadBlankLines_head _ x hx
    have hdl : dropLeadBlankLines (dropTrailBlankLines (dropLeadBlankLines
        (collapseAux 0 ((toLines cs).map trimChars)))) =
        dropTrailBlankLines (dropLeadBlankLines
          (collapseAux 0 ((toLines cs).map trimChars))) := by
      rw [hnil]
      have hh := hhead h0 (by rw [hnil]; rfl)
      rw [dropLeadBlankLines, List.dropWhile_cons, if_neg (by simp [hh])]
    have hdt : dropTrailBlankLines (dropTrailBlankLines (dropLeadBlankLines
        (collapseAux 0 ((toLines cs).map trimChars)))) =
        dropTrailBlankLines (dropLeadBlankLines
          (collapseAux 0 ((toLines cs).map trimChars))) := by
      apply dropTrailBlankLines_of_getLast
      intro m hm
      rcases dropTrailBlankLines_last (dropLeadBlankLines
          (collapseAux 0 ((toLines cs).map trimChars))) with h1 | ⟨m', hm', hne⟩
      · rw [h1] at hnil
        exact absurd hnil.symm (by simp)
      · rw [hm'] at hm
        injection hm with hm
        rw [← hm]
        exact hne
    rw [hdl, hdt]
